import Mathlib

/-!
Verification of the transcode parameter tuner (`transcode_tune.py`).

The development shallowly embeds the decision logic of the tuner:
nested JSON-like documents and the dotted-path accessors
(`set_nested_value`, `get_nested_value`, `inject_params`), the
parameter-space expansion (`generate_param_combinations`), the target
evaluator (`check_targets`), the output-reference synthesis of the
coordinator, the readiness/stability polling loop (`wait_for_output`),
and the sequential experiment coordinator (`run_experiment`).

Python dictionaries are embedded as insertion-ordered association
lists; mutation becomes functional update; code that can raise returns
`Option` (with `none` marking an uncaught exception); the injectable
clock of the polling loop advances only at the explicit sleeps.
-/

namespace TranscodeTune

/-- A JSON/YAML-like value: scalars (numbers modelled as rationals,
strings, null, booleans) and insertion-ordered objects. -/
inductive JVal where
  | num (q : ℚ)
  | str (s : String)
  | bool (b : Bool)
  | null
  | obj (fields : List (String × JVal))

/-- An insertion-ordered dictionary of JSON values. -/
abbrev JObj := List (String × JVal)

/-- `m[k]` lookup in an insertion-ordered dict. -/
def afind : JObj → String → Option JVal
  | [], _ => none
  | (k, u) :: rest, key => if k = key then some u else afind rest key

/-- `m[k] = v` on an insertion-ordered dict: replace in place if the key
exists, else append at the end (CPython dict semantics). -/
def aset : JObj → String → JVal → JObj
  | [], key, v => [(key, v)]
  | (k, u) :: rest, key, v =>
      if k = key then (k, v) :: rest else (k, u) :: aset rest key v

theorem afind_aset_same (m : JObj) (k : String) (v : JVal) :
    afind (aset m k v) k = some v := by
  induction m with
  | nil => simp [aset, afind]
  | cons kv rest ih =>
      by_cases h : kv.1 = k <;> simp [aset, afind, h, ih]

theorem afind_aset_other (m : JObj) (k k' : String) (v : JVal) (h : k ≠ k') :
    afind (aset m k v) k' = afind m k' := by
  induction m with
  | nil => simp [aset, afind, h]
  | cons kv rest ih =>
      by_cases hk : kv.1 = k
      · subst hk
        simp [aset, afind, h]
      · simp [aset, afind, hk, ih]

/-- `set_nested_value(obj, path, value)` after `keys = path.split('.')`:
walks the intermediate segments, creating missing levels as empty
dicts, and assigns the last segment.  Descending into (or assigning
onto) an existing non-dict value raises `TypeError` in Python, embedded
as `none`.  `path.split('.')` is never empty, so the `[]` case is
unreachable; it is mapped to `none`. -/
def set_nested_value (obj : JObj) (keys : List String) (value : JVal) : Option JObj :=
  match keys with
  | [] => none
  | [k] => some (aset obj k value)
  | k :: rest =>
      match afind obj k with
      | none =>
          (set_nested_value [] rest value).map (fun m => aset obj k (JVal.obj m))
      | some (JVal.obj m) =>
          (set_nested_value m rest value).map (fun m2 => aset obj k (JVal.obj m2))
      | some _ => none

/-- `get_nested_value(obj, path, default)` after `keys = path.split('.')`:
for each segment, step into the current value when it is a dict
containing the key, otherwise return the default.  The Python loop is
total — every operation it performs (`isinstance`, `in`, indexing a
dict on a present key) is non-raising. -/
def get_nested_value (v : JVal) (keys : List String) (default : JVal) : JVal :=
  match keys with
  | [] => v
  | k :: rest =>
      match v with
      | JVal.obj m =>
          match afind m k with
          | some c => get_nested_value c rest default
          | none => default
      | _ => default

/-- Specification-side accessor: the value addressed by a segment list,
`some` exactly when every segment steps through a dict containing it. -/
def resolve (v : JVal) : List String → Option JVal
  | [] => some v
  | k :: rest =>
      match v with
      | JVal.obj m =>
          match afind m k with
          | some c => resolve c rest
          | none => none
      | _ => none

/-- A segment list is compatible with a document when each of its
intermediate segments addresses a dict or an absent key (the condition
under which `set_nested_value` does not raise). -/
def pathOk (m : JObj) : List String → Bool
  | [] => true
  | [_] => true
  | k :: rest =>
      match afind m k with
      | none => true
      | some (JVal.obj m2) => pathOk m2 rest
      | some _ => false

/-- `inject_params(template, params)`: deep-copy the template (identity
in the functional embedding) and apply `set_nested_value` for each
path/value pair in insertion order; `none` if any injection raises. -/
def inject_params (template : JObj) : List (List String × JVal) → Option JObj
  | [] => some template
  | pv :: rest =>
      match set_nested_value template pv.1 pv.2 with
      | none => none
      | some t1 => inject_params t1 rest

theorem resolve_obj_cons (m : JObj) (k : String) (rest : List String) :
    resolve (JVal.obj m) (k :: rest) =
      match afind m k with
      | some c => resolve c rest
      | none => none := rfl

theorem pathOk_nil (keys : List String) : pathOk [] keys = true := by
  match keys with
  | [] => rfl
  | [k] => rfl
  | k :: k2 :: rest => simp [pathOk, afind]

/-- Core lemma on `set_nested_value`: on a path whose intermediate
segments address dicts or absent keys, the update succeeds and the
updated document resolves the path to the injected value — whatever
the leaf previously held. -/
theorem set_nested_ok (keys : List String) (m : JObj) (v : JVal)
    (hne : keys ≠ []) (hok : pathOk m keys = true) :
    ∃ m', set_nested_value m keys v = some m' ∧
      resolve (JVal.obj m') keys = some v := by
  induction keys generalizing m with
  | nil => exact absurd rfl hne
  | cons k rest ih =>
      match rest with
      | [] =>
          refine ⟨aset m k v, rfl, ?_⟩
          simp [resolve, afind_aset_same]
      | k2 :: rs =>
          have hrs : (k2 :: rs : List String) ≠ [] := by simp
          cases h : afind m k with
          | none =>
              obtain ⟨m2, hset, hres⟩ :=
                ih ([] : JObj) hrs (pathOk_nil (k2 :: rs))
              refine ⟨aset m k (JVal.obj m2), ?_, ?_⟩
              · simp [set_nested_value, h, hset]
              · rw [resolve_obj_cons, afind_aset_same]
                exact hres
          | some c =>
              cases c with
              | obj m2 =>
                  have hok2 : pathOk m2 (k2 :: rs) = true := by
                    simpa [pathOk, h] using hok
                  obtain ⟨m2', hset, hres⟩ := ih m2 hrs hok2
                  refine ⟨aset m k (JVal.obj m2'), ?_, ?_⟩
                  · simp [set_nested_value, h, hset]
                  · rw [resolve_obj_cons, afind_aset_same]
                    exact hres
              | num q => simp [pathOk, h] at hok
              | str s => simp [pathOk, h] at hok
              | bool b => simp [pathOk, h] at hok
              | null => simp [pathOk, h] at hok

theorem get_nested_eq_resolve (v : JVal) (keys : List String) (default : JVal) :
    get_nested_value v keys default = (resolve v keys).getD default := by
  induction keys generalizing v with
  | nil => rfl
  | cons k rest ih =>
      cases v with
      | obj m =>
          cases h : afind m k with
          | none => simp [get_nested_value, resolve, h]
          | some c => simp [get_nested_value, resolve, h, ih]
      | num q => rfl
      | str s => rfl
      | bool b => rfl
      | null => rfl

/-- C10: `get_nested_value` is total (the embedding is a plain total
function because every operation of the Python loop is non-raising) and
returns the addressed value exactly when every segment steps through a
dict containing it, and the caller-supplied default otherwise — i.e. it
agrees pointwise with the partial accessor `resolve` completed by the
default. -/
theorem get_nested_value_total_correct (v : JVal) (keys : List String) (default : JVal) :
    get_nested_value v keys default = (resolve v keys).getD default :=
  get_nested_eq_resolve v keys default

/-- C2 counterexample: the claim "for every base document and every
dotted path, `set_nested_value` succeeds" is false.  On the document
`{"a": 5}` and the path `"a.b"`, the walk steps into the non-dict value
`5` and Python raises `TypeError` (embedded as `none`): the collision at
an *intermediate* segment is rejected, not overwritten. -/
theorem set_nested_value_raises_on_intermediate_collision :
    set_nested_value [("a", JVal.num 5)] ["a", "b"] (JVal.num 7) = none := rfl

/-- C2 (amended): `set_nested_value` succeeds with last-write-wins
semantics at the *leaf* segment — a leaf colliding with an existing
non-mapping (or mapping) value is overwritten, and afterwards following
the path's segments reaches the injected value — provided every
*intermediate* segment addresses a mapping or an absent key; an
intermediate collision with a non-mapping value raises instead. -/
theorem set_nested_value_last_write_wins (obj : JObj) (keys : List String) (v : JVal)
    (hne : keys ≠ []) (hok : pathOk obj keys = true) :
    ∃ obj', set_nested_value obj keys v = some obj' ∧
      resolve (JVal.obj obj') keys = some v :=
  set_nested_ok keys obj v hne hok

/-- C2 witness: on the document `{"a": 5}` and the single-segment path
`"a"` (a leaf collision with the non-mapping value `5`), the update
succeeds and reading the path back yields the injected value. -/
theorem set_nested_value_last_write_wins_witness :
    (["a"] : List String) ≠ [] ∧
    pathOk [("a", JVal.num 5)] ["a"] = true ∧
    ∃ obj', set_nested_value [("a", JVal.num 5)] ["a"] (JVal.num 7) = some obj' ∧
      resolve (JVal.obj obj') ["a"] = some (JVal.num 7) := by
  refine ⟨by simp, rfl, ?_⟩
  exact set_nested_value_last_write_wins [("a", JVal.num 5)] ["a"] (JVal.num 7)
    (by simp) (by rfl)

/-- A value of the `params` mapping of the run configuration: either a
single scalar or a list of scalar alternatives. -/
inductive PVal where
  | one (v : JVal)
  | many (vs : List JVal)

/-- `v if isinstance(v, list) else [v]`. -/
def toAlts : PVal → List JVal
  | .one v => [v]
  | .many vs => vs

/-- `itertools.product(*values)`: the first list is the slowest-varying
dimension, the last the fastest. -/
def productLists : List (List JVal) → List (List JVal)
  | [] => [[]]
  | l :: rest => l.flatMap (fun x => (productLists rest).map (fun c => x :: c))

/-- `generate_param_combinations(param_defs)`: wrap scalars into
singleton lists, take the Cartesian product, and zip each combination
back with the keys in declaration order. -/
def generate_param_combinations (param_defs : List (String × PVal)) :
    List (List (String × JVal)) :=
  let keys := param_defs.map Prod.fst
  let values := param_defs.map (fun kv => toAlts kv.2)
  (productLists values).map (fun combo => List.zip keys combo)

theorem sum_map_const {α : Type} (l : List α) (n : ℕ) :
    (l.map (fun _ => n)).sum = l.length * n := by
  induction l with
  | nil => simp
  | cons a t ih => simp [ih, Nat.succ_mul, Nat.add_comm]

theorem productLists_length (ls : List (List JVal)) :
    (productLists ls).length = (ls.map List.length).prod := by
  induction ls with
  | nil => rfl
  | cons l rest ih =>
      simp only [productLists, List.length_flatMap]
      have hc : (List.length ∘ fun x => List.map (fun c => x :: c) (productLists rest)) =
          fun _ : JVal => (productLists rest).length := by
        funext x; simp
      rw [hc, sum_map_const, ih]
      simp

theorem mem_productLists_length {ls : List (List JVal)} {c : List JVal}
    (h : c ∈ productLists ls) : c.length = ls.length := by
  induction ls generalizing c with
  | nil =>
      simp only [productLists, List.mem_singleton] at h
      simp [h]
  | cons l rest ih =>
      simp only [productLists, List.mem_flatMap, List.mem_map] at h
      obtain ⟨x, _, c2, hc2, rfl⟩ := h
      simp [ih hc2]

theorem mem_productLists_forall {ls : List (List JVal)} {c : List JVal}
    (h : c ∈ productLists ls) :
    ∀ i : ℕ, ∀ hi : i < ls.length, ∀ hic : i < c.length, c.get ⟨i, hic⟩ ∈ ls.get ⟨i, hi⟩ := by
  induction ls generalizing c with
  | nil => intro i hi; simp at hi
  | cons l rest ih =>
      simp only [productLists, List.mem_flatMap, List.mem_map] at h
      obtain ⟨x, hx, c2, hc2, rfl⟩ := h
      intro i hi hic
      match i with
      | 0 => simpa using hx
      | n + 1 =>
          simp only [List.get] at *
          exact ih hc2 n (by simpa using hi) (by simpa using hic)

theorem productLists_nodup {ls : List (List JVal)}
    (h : ∀ l ∈ ls, l.Nodup) : (productLists ls).Nodup := by
  induction ls with
  | nil => simp [productLists]
  | cons l rest ih =>
      have hl : l.Nodup := h l (by simp)
      have hrest : (productLists rest).Nodup := ih (fun x hx => h x (by simp [hx]))
      refine List.nodup_flatMap.2 ⟨?_, ?_⟩
      · intro x _
        exact hrest.map (fun c1 c2 hc => by simpa using hc)
      · refine hl.imp ?_
        intro x1 x2 hne
        intro c h1 h2
        simp only [List.mem_map] at h1 h2
        obtain ⟨c1, _, rfl⟩ := h1
        obtain ⟨c2, _, h12⟩ := h2
        injection h12 with hx _
        exact hne hx.symm

/-- C1 counterexample: with a key whose alternative list repeats a
value (`{"k": [2, 2]}`), `generate_param_combinations` returns the same
assignment twice, so the claimed "no duplicate assignments in the
sequence" fails while the count C1×...×Cn (here 2) is still produced. -/
theorem generate_param_combinations_duplicate :
    ¬ (generate_param_combinations
        [("k", PVal.many [JVal.num 2, JVal.num 2])]).Nodup := by
  intro h
  have hd : generate_param_combinations [("k", PVal.many [JVal.num 2, JVal.num 2])] =
      [[("k", JVal.num 2)], [("k", JVal.num 2)]] := rfl
  rw [hd] at h
  exact (List.nodup_cons.1 h).1 (List.mem_singleton.2 rfl)

/-- C1 (amended): `generate_param_combinations` returns exactly
C1×...×Cn assignments (a scalar counting as a one-element list), each a
complete mapping over the keys in declaration order — so the empty
parameter mapping yields exactly the one empty assignment and an empty
alternative list yields zero assignments — and the sequence has no
duplicate assignments *provided each key's alternative list is
duplicate-free*. -/
theorem generate_param_combinations_spec (param_defs : List (String × PVal)) :
    (generate_param_combinations param_defs).length =
      (param_defs.map (fun kv => (toAlts kv.2).length)).prod ∧
    (∀ a ∈ generate_param_combinations param_defs,
      a.map Prod.fst = param_defs.map Prod.fst) ∧
    ((∀ kv ∈ param_defs, (toAlts kv.2).Nodup) →
      (generate_param_combinations param_defs).Nodup) ∧
    generate_param_combinations [] = [[]] := by
  refine ⟨?_, ?_, ?_, rfl⟩
  · simp only [generate_param_combinations, List.length_map, productLists_length,
      List.map_map]
    rfl
  · intro a ha
    simp only [generate_param_combinations, List.mem_map] at ha
    obtain ⟨c, hc, rfl⟩ := ha
    have hlen : c.length = param_defs.length := by
      simpa using mem_productLists_length hc
    exact List.map_fst_zip _ _ (by simp [hlen])
  · intro halts
    have hvals : ∀ l ∈ param_defs.map (fun kv => toAlts kv.2), l.Nodup := by
      intro l hl
      simp only [List.mem_map] at hl
      obtain ⟨kv, hkv, rfl⟩ := hl
      exact halts kv hkv
    have hp : (productLists (param_defs.map (fun kv => toAlts kv.2))).Nodup :=
      productLists_nodup hvals
    refine hp.map_on ?_
    intro c1 h1 c2 h2 hz
    have hl1 : c1.length = param_defs.length := by
      simpa using mem_productLists_length h1
    have hl2 : c2.length = param_defs.length := by
      simpa using mem_productLists_length h2
    have e1 : ((param_defs.map Prod.fst).zip c1).map Prod.snd = c1 :=
      List.map_snd_zip _ _ (by simp [hl1])
    have e2 : ((param_defs.map Prod.fst).zip c2).map Prod.snd = c2 :=
      List.map_snd_zip _ _ (by simp [hl2])
    rw [← e1, ← e2, hz]

/-- C1 witness: the amended theorem applied to the concrete mapping
`{"encoder.bitrate": [2000, 3000], "preset": "fast"}` — 2×1 distinct
complete assignments. -/
theorem generate_param_combinations_spec_witness :
    (∀ kv ∈ [("encoder.bitrate", PVal.many [JVal.num 2000, JVal.num 3000]),
        ("preset", PVal.one (JVal.str "fast"))], (toAlts kv.2).Nodup) ∧
    (generate_param_combinations
      [("encoder.bitrate", PVal.many [JVal.num 2000, JVal.num 3000]),
       ("preset", PVal.one (JVal.str "fast"))]).length = 2 ∧
    (generate_param_combinations
      [("encoder.bitrate", PVal.many [JVal.num 2000, JVal.num 3000]),
       ("preset", PVal.one (JVal.str "fast"))]).Nodup := by
  have h := generate_param_combinations_spec
    [("encoder.bitrate", PVal.many [JVal.num 2000, JVal.num 3000]),
     ("preset", PVal.one (JVal.str "fast"))]
  have halts : ∀ kv ∈ [("encoder.bitrate", PVal.many [JVal.num 2000, JVal.num 3000]),
      ("preset", PVal.one (JVal.str "fast"))], (toAlts kv.2).Nodup := by
    intro kv hkv
    rcases List.mem_cons.1 hkv with h1 | h1
    · subst h1
      simp [toAlts]
    · rcases List.mem_cons.1 h1 with h2 | h2
      · subst h2; simp [toAlts]
      · simp at h2
  refine ⟨halts, ?_, h.2.2.1 halts⟩
  rw [h.1]
  rfl

/-- A flat numeric record (analysis metrics, target spec).  Numeric
values of the Python code (ints and floats) are modelled as exact
rationals; a non-numeric marker entry such as `{'error': msg}` is
represented by its key only, whose value `check_targets` never reads. -/
abbrev QDict := List (String × ℚ)

/-- Dict lookup. -/
def qfind : QDict → String → Option ℚ
  | [], _ => none
  | (k, u) :: rest, key => if k = key then some u else qfind rest key

/-- `m.get(k, d)`. -/
def qget (m : QDict) (k : String) (d : ℚ) : ℚ := (qfind m k).getD d

/-- Issue string for a bitrate-average deviation. -/
def bitrateAvgIssue (actual target tolerance : ℚ) : String :=
  "码率偏差: " ++ toString actual ++ " vs 目标 " ++ toString target ++
    " (±" ++ toString tolerance ++ ")"

/-- Issue string for exceeding the bitrate ceiling. -/
def bitrateMaxIssue (actual target : ℚ) : String :=
  "码率超标: " ++ toString actual ++ " > " ++ toString target

/-- Issue string for an I-frame average-size deviation. -/
def iframeIssue (actual target : ℚ) : String :=
  "I帧偏差: " ++ toString actual ++ " vs 目标 " ++ toString target

/-- `check_targets(analysis, targets)`: three checks run in order,
each appending its issue and clearing `passed`; no short-circuit.  The
`bitrate_avg` and `iframe_avg_size` checks require the key in both
dicts and fail on a deviation strictly above the tolerance (explicit
per-metric tolerance, else 5% resp. 10% of the target).  The
`bitrate_max` check requires the key only in `targets` and its
*condition* reads `analysis.get('bitrate_max', 0)`, but the issue
f-string indexes `analysis['bitrate_max']` — so when the ceiling check
fires while the key is absent from the analysis (possible only for a
negative ceiling), Python raises `KeyError`, embedded as `none`. -/
def check_targets (analysis targets : QDict) : Option (Bool × List String) :=
  let s0 : Bool × List String := (true, [])
  let s1 :=
    match qfind targets "bitrate_avg", qfind analysis "bitrate_avg" with
    | some target, some actual =>
        let tolerance := qget targets "bitrate_tolerance" (target * (5 / 100))
        if |actual - target| > tolerance then
          (false, s0.2 ++ [bitrateAvgIssue actual target tolerance])
        else s0
    | _, _ => s0
  let s2opt : Option (Bool × List String) :=
    match qfind targets "bitrate_max" with
    | some tmax =>
        if qget analysis "bitrate_max" 0 > tmax then
          match qfind analysis "bitrate_max" with
          | some actual => some (false, s1.2 ++ [bitrateMaxIssue actual tmax])
          | none => none
        else some s1
    | none => some s1
  match s2opt with
  | none => none
  | some s2 =>
      some (match qfind targets "iframe_avg_size", qfind analysis "iframe_avg_size" with
        | some target, some actual =>
            let tolerance := qget targets "iframe_tolerance" (target * (1 / 10))
            if |actual - target| > tolerance then
              (false, s2.2 ++ [iframeIssue actual target])
            else s2
        | _, _ => s2)

/-- The exact condition under which `check_targets` raises `KeyError`:
a `bitrate_max` ceiling is configured, the defaulted actual `0` exceeds
it (i.e. the ceiling is negative), and the key is absent from the
analysis record when the issue f-string indexes it. -/
def ceilRaises (analysis targets : QDict) : Bool :=
  match qfind targets "bitrate_max" with
  | some tmax =>
      if qget analysis "bitrate_max" 0 > tmax then
        match qfind analysis "bitrate_max" with
        | some _ => false
        | none => true
      else false
  | none => false

/-- The evaluation `check_targets` performs on its non-raising path. -/
def checkEval (analysis targets : QDict) : Bool × List String :=
  let s0 : Bool × List String := (true, [])
  let s1 :=
    match qfind targets "bitrate_avg", qfind analysis "bitrate_avg" with
    | some target, some actual =>
        let tolerance := qget targets "bitrate_tolerance" (target * (5 / 100))
        if |actual - target| > tolerance then
          (false, s0.2 ++ [bitrateAvgIssue actual target tolerance])
        else s0
    | _, _ => s0
  let s2 :=
    match qfind targets "bitrate_max" with
    | some tmax =>
        if qget analysis "bitrate_max" 0 > tmax then
          (false, s1.2 ++ [bitrateMaxIssue (qget analysis "bitrate_max" 0) tmax])
        else s1
    | none => s1
  let s3 :=
    match qfind targets "iframe_avg_size", qfind analysis "iframe_avg_size" with
    | some target, some actual =>
        let tolerance := qget targets "iframe_tolerance" (target * (1 / 10))
        if |actual - target| > tolerance then
          (false, s2.2 ++ [iframeIssue actual target])
        else s2
    | _, _ => s2
  s3

/-- Specification-side condition: the bitrate-average check is violated. -/
def violAvg (analysis targets : QDict) : Bool :=
  match qfind targets "bitrate_avg", qfind analysis "bitrate_avg" with
  | some target, some actual =>
      if |actual - target| > qget targets "bitrate_tolerance" (target * (5 / 100)) then
        true
      else false
  | _, _ => false

/-- Specification-side condition: the bitrate ceiling is violated. -/
def violMax (analysis targets : QDict) : Bool :=
  match qfind targets "bitrate_max" with
  | some tmax => if qget analysis "bitrate_max" 0 > tmax then true else false
  | none => false

/-- Specification-side condition: the I-frame-size check is violated. -/
def violIfr (analysis targets : QDict) : Bool :=
  match qfind targets "iframe_avg_size", qfind analysis "iframe_avg_size" with
  | some target, some actual =>
      if |actual - target| > qget targets "iframe_tolerance" (target * (1 / 10)) then
        true
      else false
  | _, _ => false

theorem check_targets_eq_checkEval (analysis targets : QDict) :
    check_targets analysis targets =
      if ceilRaises analysis targets = true then none
      else some (checkEval analysis targets) := by
  unfold check_targets ceilRaises checkEval
  cases h1 : qfind targets "bitrate_avg" <;>
    cases h2 : qfind analysis "bitrate_avg" <;>
      cases h3 : qfind targets "bitrate_max" <;>
        cases h3b : qfind analysis "bitrate_max" <;>
          cases h4 : qfind targets "iframe_avg_size" <;>
            cases h5 : qfind analysis "iframe_avg_size" <;>
              simp_all [qget] <;> (try split_ifs) <;> simp_all

theorem checkEval_boundary (analysis targets : QDict) :
    ((checkEval analysis targets).1 = false ↔
      (violAvg analysis targets || violMax analysis targets ||
        violIfr analysis targets) = true) ∧
    (checkEval analysis targets).2.length =
      (cond (violAvg analysis targets) 1 0) + (cond (violMax analysis targets) 1 0) +
        (cond (violIfr analysis targets) 1 0) := by
  unfold checkEval violAvg violMax violIfr
  cases h1 : qfind targets "bitrate_avg" <;>
    cases h2 : qfind analysis "bitrate_avg" <;>
      cases h3 : qfind targets "bitrate_max" <;>
        cases h4 : qfind targets "iframe_avg_size" <;>
          cases h5 : qfind analysis "iframe_avg_size" <;>
            (try simp_all) <;> (try split_ifs) <;> (try simp_all) <;>
              (try simp only [Bool.cond_decide]) <;> (try split_ifs) <;>
                (try simp_all) <;> (try linarith)

/-- C4 counterexample: with a `bitrate_max` ceiling of `-5` and an
analysis record lacking `bitrate_max`, the defaulted actual `0`
strictly exceeds the target, so the claim predicts "fails and reports
the violation"; the code instead raises `KeyError` while formatting the
issue (`analysis['bitrate_max']` after the condition used
`.get('bitrate_max', 0)`), so no evaluation is returned at all. -/
theorem check_targets_raises_on_missing_max :
    check_targets [("bitrate_avg", 100)] [("bitrate_max", -5)] = none := by
  rw [check_targets_eq_checkEval]
  have hc : ceilRaises [("bitrate_avg", 100)] [("bitrate_max", -5)] = true := by
    simp +decide [ceilRaises, qfind, qget]
    try norm_num
  rw [if_pos hc]

/-- C4 (amended): `check_targets` raises `KeyError` exactly when a
configured `bitrate_max` ceiling is negative while the analysis record
lacks the key; on every other analysis/target pair it returns a result
whose boundary semantics are as claimed — it fails exactly when one of
the three declarative violation conditions holds (a tolerance-style
metric present in both dicts is violated iff the absolute deviation
strictly exceeds its tolerance, so a deviation exactly equal to the
tolerance passes; the maximum-style `bitrate_max` is violated iff the
actual, defaulted to `0` when absent, strictly exceeds the target, with
no tolerance) and the issue list carries one entry per violated check
(all violations reported, no short-circuit). -/
theorem check_targets_boundary (analysis targets : QDict) :
    (check_targets analysis targets = none ↔ ceilRaises analysis targets = true) ∧
    ∀ r, check_targets analysis targets = some r →
      ((r.1 = false ↔ (violAvg analysis targets || violMax analysis targets ||
          violIfr analysis targets) = true) ∧
        r.2.length = (cond (violAvg analysis targets) 1 0) +
          (cond (violMax analysis targets) 1 0) +
          (cond (violIfr analysis targets) 1 0)) := by
  rw [check_targets_eq_checkEval]
  constructor
  · by_cases hc : ceilRaises analysis targets = true
    · rw [if_pos hc]
      simp [hc]
    · rw [if_neg hc]
      simp only [Bool.not_eq_true] at hc
      simp [hc]
  · intro r hr
    by_cases hc : ceilRaises analysis targets = true
    · rw [if_pos hc] at hr
      simp at hr
    · rw [if_neg hc] at hr
      simp only [Option.some.injEq] at hr
      rw [← hr]
      exact checkEval_boundary analysis targets

/-- C4 witness at the spec's own boundary examples: target
`bitrate_avg = 2900` with tolerance `100`; an actual of `3000`
(deviation exactly the tolerance) evaluates without raising and passes
with no issue, and with `bitrate_max` target `5000`, an actual
`bitrate_max` of `5001` (target+1) fails with exactly one issue. -/
theorem check_targets_boundary_witness :
    (∃ r, check_targets [("bitrate_avg", 3000)]
        [("bitrate_avg", 2900), ("bitrate_tolerance", 100)] = some r ∧
      r.1 = true ∧ r.2.length = 0) ∧
    (∃ r, check_targets [("bitrate_avg", 2900), ("bitrate_max", 5001)]
        [("bitrate_avg", 2900), ("bitrate_max", 5000)] = some r ∧
      r.1 = false ∧ r.2.length = 1) := by
  have h1 := check_targets_boundary [("bitrate_avg", 3000)]
    [("bitrate_avg", 2900), ("bitrate_tolerance", 100)]
  have h2 := check_targets_boundary [("bitrate_avg", 2900), ("bitrate_max", 5001)]
    [("bitrate_avg", 2900), ("bitrate_max", 5000)]
  have ha1 : violAvg [("bitrate_avg", 3000)]
      [("bitrate_avg", 2900), ("bitrate_tolerance", 100)] = false := by
    simp +decide [violAvg, qfind, qget]
    try norm_num
  have hm1 : violMax [("bitrate_avg", 3000)]
      [("bitrate_avg", 2900), ("bitrate_tolerance", 100)] = false := by
    simp +decide [violMax, qfind, qget]
    try norm_num
  have hi1 : violIfr [("bitrate_avg", 3000)]
      [("bitrate_avg", 2900), ("bitrate_tolerance", 100)] = false := by
    simp +decide [violIfr, qfind, qget]
    try norm_num
  have ha2 : violAvg [("bitrate_avg", 2900), ("bitrate_max", 5001)]
      [("bitrate_avg", 2900), ("bitrate_max", 5000)] = false := by
    simp +decide [violAvg, qfind, qget]
    try norm_num
  have hm2 : violMax [("bitrate_avg", 2900), ("bitrate_max", 5001)]
      [("bitrate_avg", 2900), ("bitrate_max", 5000)] = true := by
    simp +decide [violMax, qfind, qget]
    try norm_num
  have hi2 : violIfr [("bitrate_avg", 2900), ("bitrate_max", 5001)]
      [("bitrate_avg", 2900), ("bitrate_max", 5000)] = false := by
    simp +decide [violIfr, qfind, qget]
    try norm_num
  have hc1 : ceilRaises [("bitrate_avg", 3000)]
      [("bitrate_avg", 2900), ("bitrate_tolerance", 100)] = false := rfl
  have hc2 : ceilRaises [("bitrate_avg", 2900), ("bitrate_max", 5001)]
      [("bitrate_avg", 2900), ("bitrate_max", 5000)] = false := by
    simp +decide [ceilRaises, qfind, qget]
    try norm_num
  obtain ⟨r1, hr1⟩ := Option.ne_none_iff_exists'.1 (fun hn => by
    have := h1.1.mp hn
    rw [hc1] at this
    exact absurd this (by simp))
  obtain ⟨r2, hr2⟩ := Option.ne_none_iff_exists'.1 (fun hn => by
    have := h2.1.mp hn
    rw [hc2] at this
    exact absurd this (by simp))
  obtain ⟨hiff1, hlen1⟩ := h1.2 r1 hr1
  obtain ⟨hiff2, hlen2⟩ := h2.2 r2 hr2
  refine ⟨⟨r1, hr1, ?_, ?_⟩, ⟨r2, hr2, ?_, ?_⟩⟩
  · cases hb : r1.1
    · exact absurd (hiff1.mp hb) (by simp [ha1, hm1, hi1])
    · rfl
  · rw [hlen1, ha1, hm1, hi1]
    rfl
  · exact hiff2.mpr (by simp [hm2])
  · rw [hlen2, ha2, hm2, hi2]
    rfl

/-- The score the coordinator computes for a passing task:
`abs(analysis.get('bitrate_avg', 0) - targets.get('bitrate_avg', 0))`. -/
def scoreOf (analysis targets : QDict) : ℚ :=
  |qget analysis "bitrate_avg" 0 - qget targets "bitrate_avg" 0|

/-- C9 counterexample: on an analysis record holding only an error
marker with a (nonsensical but accepted) negative `bitrate_max` target,
`check_targets` does not return passed=True — it does not return at
all: the ceiling condition fires on the defaulted `0` and the issue
f-string raises `KeyError` indexing the absent `analysis['bitrate_max']`. -/
theorem check_targets_error_record_negative_ceiling :
    check_targets [("error", 0)] [("bitrate_max", -1)] = none := by
  rw [check_targets_eq_checkEval]
  have hc : ceilRaises [("error", 0)] [("bitrate_max", -1)] = true := by
    simp +decide [ceilRaises, qfind, qget]
    try norm_num
  rw [if_pos hc]

/-- C9 (amended): if the analysis record contains none of the targeted
metric keys (in particular when video analysis failed and the record
holds only an `error` marker), then — provided any configured
`bitrate_max` target is nonnegative; with a negative ceiling the code
instead raises `KeyError` while formatting the issue — `check_targets`
returns passed=True with an empty issue list, so the task counts as
passing and is eligible to become the best candidate, its score
computed from the missing `bitrate_avg` treated as `0`. -/
theorem check_targets_missing_metrics_pass (analysis targets : QDict)
    (hA : qfind analysis "bitrate_avg" = none)
    (hM : qfind analysis "bitrate_max" = none)
    (hI : qfind analysis "iframe_avg_size" = none)
    (hT : ∀ t : ℚ, qfind targets "bitrate_max" = some t → 0 ≤ t) :
    check_targets analysis targets = some (true, []) ∧
    scoreOf analysis targets = |0 - qget targets "bitrate_avg" 0| := by
  constructor
  · rw [check_targets_eq_checkEval]
    have hc : ceilRaises analysis targets = false := by
      unfold ceilRaises
      cases h3 : qfind targets "bitrate_max" with
      | none => rfl
      | some tmax =>
          dsimp only
          rw [if_neg]
          unfold qget
          rw [hM]
          simpa using hT tmax h3
    rw [if_neg (by simp [hc])]
    have he : checkEval analysis targets = (true, []) := by
      unfold checkEval
      cases h1 : qfind targets "bitrate_avg" <;>
        cases h3 : qfind targets "bitrate_max" <;>
          cases h4 : qfind targets "iframe_avg_size" <;>
            simp_all [qget]
    rw [he]
  · unfold scoreOf qget
    rw [hA]
    rfl

/-- C9 witness: a failed-analysis record `{'error': ...}` against the
default-style targets `{bitrate_avg: 3500, bitrate_max: 5000}` passes
with no issues and scores `|0 - 3500|`. -/
theorem check_targets_missing_metrics_pass_witness :
    qfind [("error", 0)] "bitrate_avg" = none ∧
    (∀ t : ℚ, qfind [("bitrate_avg", 3500), ("bitrate_max", 5000)] "bitrate_max" = some t →
      0 ≤ t) ∧
    check_targets [("error", 0)] [("bitrate_avg", 3500), ("bitrate_max", 5000)] =
      some (true, []) := by
  have hT : ∀ t : ℚ, qfind [("bitrate_avg", 3500), ("bitrate_max", 5000)] "bitrate_max" =
      some t → 0 ≤ t := by
    intro t ht
    simp +decide [qfind] at ht
    simp [← ht]
  refine ⟨rfl, hT, ?_⟩
  exact (check_targets_missing_metrics_pass [("error", 0)]
    [("bitrate_avg", 3500), ("bitrate_max", 5000)] rfl rfl rfl hT).1


/-- `initSeg p q`: the segment list `p` is an initial segment of `q`
(dotted path `p` addresses an ancestor-or-equal of what `q` addresses). -/
def initSeg : List String → List String → Bool
  | [], _ => true
  | _ :: _, [] => false
  | a :: as, b :: bs => a = b && initSeg as bs

/-- A scalar (non-mapping) JSON value. -/
def isScalar : JVal → Bool
  | .obj _ => false
  | _ => true

theorem resolve_obj_nil_of_ne {q : List String} (hq : q ≠ []) :
    resolve (JVal.obj []) q = none := by
  match q with
  | [] => exact absurd rfl hq
  | k :: qs => simp [resolve, afind]

/-- Frame property: updating along path `p` does not change what any
path `q` that neither extends nor is extended by `p` resolves to. -/
theorem resolve_set_frame (p : List String) (m m' : JObj) (v : JVal) (q : List String)
    (hset : set_nested_value m p v = some m')
    (h1 : initSeg p q = false) (h2 : initSeg q p = false) :
    resolve (JVal.obj m') q = resolve (JVal.obj m) q := by
  induction p generalizing m m' q with
  | nil => exact absurd hset (by simp [set_nested_value])
  | cons k ps ih =>
      have hq : q ≠ [] := by
        intro h
        subst h
        simp [initSeg] at h2
      match q, hq with
      | kq :: qs, _ =>
          by_cases hk : kq = k
          · subst hk
            have h1' : initSeg ps qs = false := by
              simpa [initSeg] using h1
            have h2' : initSeg qs ps = false := by
              simpa [initSeg] using h2
            have hqs : qs ≠ [] := by
              intro h
              subst h
              match ps with
              | [] => simp [initSeg] at h1'
              | _ :: _ => simp [initSeg] at h2'
            match ps, h1' with
            | [], h1' => simp [initSeg] at h1'
            | p2 :: ps', h1' =>
                simp only [set_nested_value] at hset
                cases hfind : afind m kq with
                | none =>
                    simp only [hfind] at hset
                    cases hs2 : set_nested_value [] (p2 :: ps') v with
                    | none => simp [hs2] at hset
                    | some m2 =>
                        simp only [hs2, Option.map_some', Option.some.injEq] at hset
                        rw [resolve_obj_cons, resolve_obj_cons, hfind, ← hset, afind_aset_same]
                        show resolve (JVal.obj m2) qs = none
                        rw [ih [] m2 qs hs2 h1' h2', resolve_obj_nil_of_ne hqs]
                | some c =>
                    cases c with
                    | obj m2 =>
                        simp only [hfind] at hset
                        cases hs2 : set_nested_value m2 (p2 :: ps') v with
                        | none => simp [hs2] at hset
                        | some m2' =>
                            simp only [hs2, Option.map_some', Option.some.injEq] at hset
                            rw [resolve_obj_cons, resolve_obj_cons, hfind, ← hset,
                              afind_aset_same]
                            show resolve (JVal.obj m2') qs = resolve (JVal.obj m2) qs
                            exact ih m2 m2' qs hs2 h1' h2'
                    | num n => simp [hfind] at hset
                    | str s => simp [hfind] at hset
                    | bool b => simp [hfind] at hset
                    | null => simp [hfind] at hset
          · -- heads differ: the updated dict agrees with the old one at `kq`
            have hfind' : afind m' kq = afind m kq := by
              match ps, hset with
              | [], hset =>
                  simp only [set_nested_value, Option.some.injEq] at hset
                  rw [← hset]
                  exact afind_aset_other m k kq v (fun h => hk h.symm)
              | p2 :: ps', hset =>
                  simp only [set_nested_value] at hset
                  cases hfind : afind m k with
                  | none =>
                      simp only [hfind] at hset
                      cases hs2 : set_nested_value [] (p2 :: ps') v with
                      | none => simp [hs2] at hset
                      | some m2 =>
                          simp only [hs2, Option.map_some', Option.some.injEq] at hset
                          rw [← hset]
                          exact afind_aset_other m k kq _ (fun h => hk h.symm)
                  | some c =>
                      cases c with
                      | obj m2 =>
                          simp only [hfind] at hset
                          cases hs2 : set_nested_value m2 (p2 :: ps') v with
                          | none => simp [hs2] at hset
                          | some m2' =>
                              simp only [hs2, Option.map_some', Option.some.injEq] at hset
                              rw [← hset]
                              exact afind_aset_other m k kq _ (fun h => hk h.symm)
                      | num n => simp [hfind] at hset
                      | str s => simp [hfind] at hset
                      | bool b => simp [hfind] at hset
                      | null => simp [hfind] at hset
            rw [resolve_obj_cons, resolve_obj_cons, hfind']

/-- Updating along `k :: ps` leaves every other top-level key alone. -/
theorem afind_set_cons_other (k : String) (ps : List String) (m m' : JObj) (v : JVal)
    (kq : String) (hset : set_nested_value m (k :: ps) v = some m') (hk : kq ≠ k) :
    afind m' kq = afind m kq := by
  match ps, hset with
  | [], hset =>
      simp only [set_nested_value, Option.some.injEq] at hset
      rw [← hset]
      exact afind_aset_other m k kq v (fun h => hk h.symm)
  | p2 :: ps', hset =>
      simp only [set_nested_value] at hset
      cases hfind : afind m k with
      | none =>
          simp only [hfind] at hset
          cases hs2 : set_nested_value [] (p2 :: ps') v with
          | none => simp [hs2] at hset
          | some m2 =>
              simp only [hs2, Option.map_some', Option.some.injEq] at hset
              rw [← hset]
              exact afind_aset_other m k kq _ (fun h => hk h.symm)
      | some c =>
          cases c with
          | obj m2 =>
              simp only [hfind] at hset
              cases hs2 : set_nested_value m2 (p2 :: ps') v with
              | none => simp [hs2] at hset
              | some m2' =>
                  simp only [hs2, Option.map_some', Option.some.injEq] at hset
                  rw [← hset]
                  exact afind_aset_other m k kq _ (fun h => hk h.symm)
          | num n => simp [hfind] at hset
          | str s => simp [hfind] at hset
          | bool b => simp [hfind] at hset
          | null => simp [hfind] at hset

theorem pathOk_cons_cons (m : JObj) (k q2 : String) (qs : List String) :
    pathOk m (k :: q2 :: qs) =
      match afind m k with
      | none => true
      | some (JVal.obj m2) => pathOk m2 (q2 :: qs)
      | some _ => false := rfl

/-- Updating along `p` preserves compatibility of every path that
neither extends nor is extended by `p`. -/
theorem pathOk_set_frame (p : List String) (m m' : JObj) (v : JVal) (q : List String)
    (hset : set_nested_value m p v = some m')
    (h1 : initSeg p q = false) (h2 : initSeg q p = false)
    (hok : pathOk m q = true) : pathOk m' q = true := by
  induction p generalizing m m' q with
  | nil => exact absurd hset (by simp [set_nested_value])
  | cons k ps ih =>
      have hq : q ≠ [] := by
        intro h
        subst h
        simp [initSeg] at h2
      match q, hq with
      | [kq], _ => simp [pathOk]
      | kq :: q2 :: qs, _ =>
          by_cases hk : kq = k
          · subst hk
            have h1' : initSeg ps (q2 :: qs) = false := by
              simpa [initSeg] using h1
            have h2' : initSeg (q2 :: qs) ps = false := by
              simpa [initSeg] using h2
            match ps, h1' with
            | [], h1' => simp [initSeg] at h1'
            | p2 :: ps', h1' =>
                simp only [set_nested_value] at hset
                cases hfind : afind m kq with
                | none =>
                    simp only [hfind] at hset
                    cases hs2 : set_nested_value [] (p2 :: ps') v with
                    | none => simp [hs2] at hset
                    | some m2 =>
                        simp only [hs2, Option.map_some', Option.some.injEq] at hset
                        rw [← hset, pathOk_cons_cons, afind_aset_same]
                        exact ih [] m2 (q2 :: qs) hs2 h1' h2' (pathOk_nil (q2 :: qs))
                | some c =>
                    cases c with
                    | obj m2 =>
                        simp only [hfind] at hset
                        cases hs2 : set_nested_value m2 (p2 :: ps') v with
                        | none => simp [hs2] at hset
                        | some m2' =>
                            simp only [hs2, Option.map_some', Option.some.injEq] at hset
                            rw [← hset, pathOk_cons_cons, afind_aset_same]
                            have hok2 : pathOk m2 (q2 :: qs) = true := by
                              rw [pathOk_cons_cons, hfind] at hok
                              exact hok
                            exact ih m2 m2' (q2 :: qs) hs2 h1' h2' hok2
                    | num n => simp [hfind] at hset
                    | str s => simp [hfind] at hset
                    | bool b => simp [hfind] at hset
                    | null => simp [hfind] at hset
          · have hfind' : afind m' kq = afind m kq :=
              afind_set_cons_other k ps m m' v kq hset hk
            rw [pathOk_cons_cons, hfind']
            rw [pathOk_cons_cons] at hok
            exact hok

/-- Injecting an assignment does not change what a path unrelated to
every injected path resolves to. -/
theorem inject_params_frame (A : List (List String × JVal)) (T r : JObj) (q : List String)
    (hinj : inject_params T A = some r)
    (hq : ∀ pv ∈ A, initSeg pv.1 q = false ∧ initSeg q pv.1 = false) :
    resolve (JVal.obj r) q = resolve (JVal.obj T) q := by
  induction A generalizing T with
  | nil =>
      simp only [inject_params, Option.some.injEq] at hinj
      rw [hinj]
  | cons pv rest ih =>
      simp only [inject_params] at hinj
      cases hset : set_nested_value T pv.1 pv.2 with
      | none => rw [hset] at hinj; simp at hinj
      | some T1 =>
          rw [hset] at hinj
          have h := hq pv (by simp)
          rw [ih T1 hinj (fun qv hqv => hq qv (by simp [hqv]))]
          exact resolve_set_frame pv.1 T T1 pv.2 q hset h.1 h.2

/-- Helper for C8: under nonempty, pairwise non-nested paths that are
compatible with the template, injection succeeds and each injected path
resolves to its injected value. -/
theorem inject_params_resolve (T : JObj) (A : List (List String × JVal))
    (hne : ∀ pv ∈ A, pv.1 ≠ [])
    (hpair : A.Pairwise (fun pv qv => initSeg pv.1 qv.1 = false ∧ initSeg qv.1 pv.1 = false))
    (hok : ∀ pv ∈ A, pathOk T pv.1 = true) :
    ∃ r, inject_params T A = some r ∧
      ∀ pv ∈ A, resolve (JVal.obj r) pv.1 = some pv.2 := by
  induction A generalizing T with
  | nil => exact ⟨T, rfl, by simp⟩
  | cons pv rest ih =>
      obtain ⟨T1, hset, hres⟩ :=
        set_nested_ok pv.1 T pv.2 (hne pv (by simp)) (hok pv (by simp))
      obtain ⟨hhead, hrest⟩ := List.pairwise_cons.1 hpair
      have hok' : ∀ qv ∈ rest, pathOk T1 qv.1 = true := by
        intro qv hqv
        exact pathOk_set_frame pv.1 T T1 pv.2 qv.1 hset (hhead qv hqv).1
          (hhead qv hqv).2 (hok qv (by simp [hqv]))
      obtain ⟨r, hinj, hresrest⟩ := ih T1 (fun qv hqv => hne qv (by simp [hqv])) hrest hok'
      refine ⟨r, ?_, ?_⟩
      · simp only [inject_params, hset]
        exact hinj
      · intro qv hqv
        rcases List.mem_cons.1 hqv with h | h
        · subst h
          rw [inject_params_frame rest T1 r qv.1 hinj
            (fun wv hwv => ⟨(hhead wv hwv).2, (hhead wv hwv).1⟩)]
          exact hres
        · exact hresrest qv h

/-- C8: round-trip.  For a template `T` and an assignment `A` of dotted
paths (nonempty segment lists, as produced by `split('.')`) to scalar
values, where no path of `A` is a proper-or-equal initial segment of
another and each path's intermediate segments address mappings or
absent keys in `T`, the injection succeeds and reading each path of `A`
back from the injected document with `get_nested_value` yields exactly
the injected value, whatever default is supplied. -/
theorem inject_params_roundtrip (T : JObj) (A : List (List String × JVal))
    (hne : ∀ pv ∈ A, pv.1 ≠ [])
    (hscalar : ∀ pv ∈ A, isScalar pv.2 = true)
    (hpair : A.Pairwise (fun pv qv => initSeg pv.1 qv.1 = false ∧ initSeg qv.1 pv.1 = false))
    (hok : ∀ pv ∈ A, pathOk T pv.1 = true) :
    ∃ r, inject_params T A = some r ∧
      ∀ pv ∈ A, ∀ d : JVal, get_nested_value (JVal.obj r) pv.1 d = pv.2 := by
  obtain ⟨r, hinj, hres⟩ := inject_params_resolve T A hne hpair hok
  refine ⟨r, hinj, ?_⟩
  intro pv hpv d
  rw [get_nested_eq_resolve, hres pv hpv]
  rfl

/-- C8 witness: injecting `{"encoder.bitrate": 2000, "input.uri":
"file:/a/v.mp4"}` into a concrete two-section template and reading both
paths back. -/
theorem inject_params_roundtrip_witness :
    (∀ pv ∈ [((["encoder", "bitrate"] : List String), JVal.num 2000),
        (["input", "uri"], JVal.str "file:/a/v.mp4")], pv.1 ≠ []) ∧
    (∀ pv ∈ [((["encoder", "bitrate"] : List String), JVal.num 2000),
        (["input", "uri"], JVal.str "file:/a/v.mp4")], isScalar pv.2 = true) ∧
    (∃ r, inject_params
        [("input", JVal.obj [("uri", JVal.str "old")]),
         ("encoder", JVal.obj [("preset", JVal.str "slow")])]
        [((["encoder", "bitrate"] : List String), JVal.num 2000),
         (["input", "uri"], JVal.str "file:/a/v.mp4")] = some r ∧
      ∀ pv ∈ [((["encoder", "bitrate"] : List String), JVal.num 2000),
          (["input", "uri"], JVal.str "file:/a/v.mp4")],
        ∀ d : JVal, get_nested_value (JVal.obj r) pv.1 d = pv.2) := by
  refine ⟨by decide, by decide, ?_⟩
  exact inject_params_roundtrip
    [("input", JVal.obj [("uri", JVal.str "old")]),
     ("encoder", JVal.obj [("preset", JVal.str "slow")])]
    [((["encoder", "bitrate"] : List String), JVal.num 2000),
     (["input", "uri"], JVal.str "file:/a/v.mp4")]
    (by decide) (by decide)
    (by refine List.pairwise_cons.2 ⟨?_, ?_⟩
        · intro qv hqv
          rcases List.mem_cons.1 hqv with h | h
          · subst h
            exact ⟨by decide, by decide⟩
          · simp at h
        · exact List.pairwise_singleton _ _)
    (by decide)

/-- Little-endian decimal digits with explicit fuel (the fuel `n`
suffices because `n / 10 < n` for positive `n`). -/
def digitsAux : Nat → Nat → List Nat
  | 0, _ => []
  | fuel + 1, n => if n = 0 then [] else n % 10 :: digitsAux fuel (n / 10)

/-- Value of a little-endian digit list. -/
def ofDigitsLE : List Nat → Nat
  | [] => 0
  | d :: ds => d + 10 * ofDigitsLE ds

theorem ofDigitsLE_digitsAux (fuel n : Nat) (h : n ≤ fuel) :
    ofDigitsLE (digitsAux fuel n) = n := by
  induction fuel generalizing n with
  | zero =>
      have : n = 0 := Nat.le_zero.1 h
      simp [this, digitsAux, ofDigitsLE]
  | succ fuel ih =>
      by_cases hn : n = 0
      · simp [digitsAux, hn, ofDigitsLE]
      · have hdiv : n / 10 ≤ fuel := by
          have : n / 10 < n := Nat.div_lt_self (Nat.pos_of_ne_zero hn) (by norm_num)
          omega
        simp only [digitsAux, hn, if_false, ofDigitsLE, ih (n / 10) hdiv]
        omega

theorem digitsAux_lt_ten (fuel n : Nat) : ∀ d ∈ digitsAux fuel n, d < 10 := by
  induction fuel generalizing n with
  | zero => simp [digitsAux]
  | succ fuel ih =>
      by_cases hn : n = 0
      · simp [digitsAux, hn]
      · simp only [digitsAux, hn, if_false]
        intro d hd
        rcases List.mem_cons.1 hd with h | h
        · subst h
          exact Nat.mod_lt _ (by norm_num)
        · exact ih (n / 10) d h

/-- Decimal rendering of a natural number (the f-string `{param_idx}`). -/
def natToString (n : Nat) : String :=
  if n = 0 then "0" else String.mk (((digitsAux n n).map Nat.digitChar).reverse)

theorem digitChar_inj_lt :
    ∀ d, d < 10 → ∀ e, e < 10 → Nat.digitChar d = Nat.digitChar e → d = e := by decide

theorem digitChar_ne_underscore : ∀ d, d < 10 → Nat.digitChar d ≠ '_' := by decide

theorem map_digitChar_inj {l1 l2 : List Nat}
    (h1 : ∀ d ∈ l1, d < 10) (h2 : ∀ d ∈ l2, d < 10)
    (h : l1.map Nat.digitChar = l2.map Nat.digitChar) : l1 = l2 := by
  induction l1 generalizing l2 with
  | nil =>
      cases l2 with
      | nil => rfl
      | cons b bs => simp at h
  | cons a as ih =>
      cases l2 with
      | nil => simp at h
      | cons b bs =>
          simp only [List.map_cons, List.cons.injEq] at h
          have ha : a = b :=
            digitChar_inj_lt a (h1 a (by simp)) b (h2 b (by simp)) h.1
          rw [ha, ih (fun d hd => h1 d (by simp [hd])) (fun d hd => h2 d (by simp [hd])) h.2]

theorem natToString_inj (n m : Nat) (h : natToString n = natToString m) : n = m := by
  unfold natToString at h
  by_cases hn : n = 0 <;> by_cases hm : m = 0
  · omega
  · rw [if_pos hn, if_neg hm] at h
    have hd := congrArg String.data h
    simp only [String.mk] at hd
    have hND : digitsAux m m ≠ [] := by
      intro hnil
      have := ofDigitsLE_digitsAux m m (le_refl m)
      rw [hnil] at this
      simp [ofDigitsLE] at this
      exact hm this.symm
    have hlen := congrArg List.length hd
    simp only [List.length_reverse, List.length_map] at hlen
    match hdig : digitsAux m m, hND with
    | [d], _ =>
        rw [hdig] at hd
        simp at hd
        have hd10 : d < 10 := digitsAux_lt_ten m m d (by rw [hdig]; simp)
        have : d = 0 := digitChar_inj_lt d hd10 0 (by norm_num) (by
          have : Nat.digitChar d = '0' := hd.symm
          simpa [Nat.digitChar] using this)
        subst this
        have := ofDigitsLE_digitsAux m m (le_refl m)
        rw [hdig] at this
        simp [ofDigitsLE] at this
        exact absurd this.symm hm
    | d1 :: d2 :: ds, _ =>
        rw [hdig] at hlen
        simp at hlen
  · rw [if_neg hn, if_pos hm] at h
    have hd := congrArg String.data h
    simp only [String.mk] at hd
    have hND : digitsAux n n ≠ [] := by
      intro hnil
      have := ofDigitsLE_digitsAux n n (le_refl n)
      rw [hnil] at this
      simp [ofDigitsLE] at this
      exact hn this.symm
    have hlen := congrArg List.length hd
    simp only [List.length_reverse, List.length_map] at hlen
    match hdig : digitsAux n n, hND with
    | [d], _ =>
        rw [hdig] at hd
        simp at hd
        have hd10 : d < 10 := digitsAux_lt_ten n n d (by rw [hdig]; simp)
        have : d = 0 := digitChar_inj_lt d hd10 0 (by norm_num) (by
          simpa [Nat.digitChar] using hd)
        subst this
        have := ofDigitsLE_digitsAux n n (le_refl n)
        rw [hdig] at this
        simp [ofDigitsLE] at this
        exact absurd this.symm hn
    | d1 :: d2 :: ds, _ =>
        rw [hdig] at hlen
        simp at hlen
  · rw [if_neg hn, if_neg hm] at h
    have hd := congrArg String.data h
    simp only [String.mk] at hd
    have := List.reverse_injective hd
    have hdig := map_digitChar_inj (digitsAux_lt_ten n n) (digitsAux_lt_ten m m) this
    have h1 := ofDigitsLE_digitsAux n n (le_refl n)
    have h2 := ofDigitsLE_digitsAux m m (le_refl m)
    rw [hdig, h2] at h1
    exact h1.symm

theorem natToString_no_underscore (n : Nat) :
    ∀ c ∈ (natToString n).data, c ≠ '_' := by
  unfold natToString
  by_cases hn : n = 0
  · simp [hn]
  · simp only [hn, if_false, String.mk]
    intro c hc
    rw [List.mem_reverse] at hc
    rcases List.mem_map.1 hc with ⟨d, hd, rfl⟩
    exact digitChar_ne_underscore d (digitsAux_lt_ten n n d hd)

/-- `input_uri.replace('file:', '')`: remove every (non-overlapping,
left-to-right) occurrence of `file:`. -/
def stripFileScheme : List Char → List Char
  | 'f' :: 'i' :: 'l' :: 'e' :: ':' :: rest => stripFileScheme rest
  | c :: rest => c :: stripFileScheme rest
  | [] => []

/-- `PurePath(p).name`: the final component, i.e. everything after the
last `/`. -/
def pyName (s : List Char) : List Char :=
  (s.reverse.takeWhile (fun c => c != '/')).reverse

/-- `PurePath(p).stem`: the name without its last suffix; a suffix
exists only when the last dot of the name is neither leading nor
trailing. -/
def pyStem (name : List Char) : List Char :=
  match name.reverse.findIdx? (fun c => c == '.') with
  | some j => if 0 < j ∧ j < name.length - 1 then (name.reverse.drop (j + 1)).reverse else name
  | none => name

/-- The stem the coordinator derives from an input URI:
`Path(input_uri.replace('file:', '')).stem`. -/
def stemOf (inputUri : String) : List Char :=
  pyStem (pyName (stripFileScheme inputUri.data))

/-- The output reference the coordinator synthesizes for a task:
`f"file:/tmp/output/{input_basename}_p{param_idx}.mp4"`. -/
def output_uri (inputUri : String) (paramIdx : Nat) : String :=
  String.mk ("file:/tmp/output/".data ++ stemOf inputUri ++ "_p".data ++
    (natToString paramIdx).data ++ ".mp4".data)

/-- All output references of one run, in task order: parameter
combinations (1-based index) as the outer loop, files as the inner
loop. -/
def outputUris (numCombos : Nat) (files : List String) : List String :=
  (List.range numCombos).flatMap (fun p => files.map (fun f => output_uri f (p + 1)))

theorem append_underscore_cancel (x1 : List Char) :
    ∀ (x2 y1 y2 : List Char), (∀ c ∈ y1, c ≠ '_') → (∀ c ∈ y2, c ≠ '_') →
      x1 ++ '_' :: y1 = x2 ++ '_' :: y2 → x1 = x2 ∧ y1 = y2 := by
  induction x1 with
  | nil =>
      intro x2 y1 y2 hy1 hy2 h
      cases x2 with
      | nil =>
          simp only [List.nil_append, List.cons.injEq] at h
          exact ⟨rfl, h.2⟩
      | cons c x2' =>
          simp only [List.nil_append, List.cons_append, List.cons.injEq] at h
          exact absurd (h.2 ▸ (List.mem_append.2 (Or.inr (by simp))))
            (fun hmem => hy1 '_' hmem rfl)
  | cons c x1' ih =>
      intro x2 y1 y2 hy1 hy2 h
      cases x2 with
      | nil =>
          simp only [List.cons_append, List.nil_append, List.cons.injEq] at h
          exact absurd (h.2.symm ▸ (List.mem_append.2 (Or.inr (by simp))))
            (fun hmem => hy2 '_' hmem rfl)
      | cons c2 x2' =>
          simp only [List.cons_append, List.cons.injEq] at h
          obtain ⟨h12, hx⟩ := ih x2' y1 y2 hy1 hy2 h.2
          exact ⟨by rw [h.1, h12], hx⟩

theorem output_uri_inj (f1 f2 : String) (p1 p2 : Nat)
    (h : output_uri f1 p1 = output_uri f2 p2) :
    stemOf f1 = stemOf f2 ∧ p1 = p2 := by
  have hd := congrArg String.data h
  simp only [output_uri, String.mk] at hd
  have hd' : stemOf f1 ++ '_' :: ('p' :: ((natToString p1).data ++ ".mp4".data)) =
      stemOf f2 ++ '_' :: ('p' :: ((natToString p2).data ++ ".mp4".data)) := by
    have := List.append_cancel_left (by simpa [List.append_assoc] using hd :
      "file:/tmp/output/".data ++
        (stemOf f1 ++ ('_' :: 'p' :: ((natToString p1).data ++ ".mp4".data))) =
      "file:/tmp/output/".data ++
        (stemOf f2 ++ ('_' :: 'p' :: ((natToString p2).data ++ ".mp4".data))))
    simpa using this
  have hy : ∀ (p : Nat) (c : Char),
      c ∈ 'p' :: ((natToString p).data ++ ".mp4".data) → c ≠ '_' := by
    intro p c hc
    rcases List.mem_cons.1 hc with h1 | h1
    · subst h1; decide
    · rcases List.mem_append.1 h1 with h2 | h2
      · exact natToString_no_underscore p c h2
      · exact (by decide : ∀ c ∈ ".mp4".data, c ≠ '_') c h2
  obtain ⟨hstem, hrest⟩ :=
    append_underscore_cancel (stemOf f1) (stemOf f2) _ _ (hy p1) (hy p2) hd'
  refine ⟨hstem, ?_⟩
  simp only [List.cons.injEq] at hrest
  have hr : (natToString p1).data = (natToString p2).data :=
    List.append_cancel_right hrest.2
  exact natToString_inj p1 p2 (String.ext hr)

/-- C6 counterexample: two distinct input files with the same basename
stem (`/a/video.mp4` and `/b/video.mp4`) receive the *same* output
reference in the same assignment, because the reference is built only
from the stem and the assignment index — so the synthesized references
are not collision-free across all tasks of a run. -/
theorem output_uri_collision :
    ("file:/a/video.mp4" : String) ≠ "file:/b/video.mp4" ∧
    output_uri "file:/a/video.mp4" 1 = output_uri "file:/b/video.mp4" 1 ∧
    ¬ (outputUris 1 ["file:/a/video.mp4", "file:/b/video.mp4"]).Nodup := by
  refine ⟨by decide, by decide, ?_⟩
  intro h
  have hred : outputUris 1 ["file:/a/video.mp4", "file:/b/video.mp4"] =
      ["file:/tmp/output/video_p1.mp4", "file:/tmp/output/video_p1.mp4"] := by decide
  rw [hred] at h
  exact (List.nodup_cons.1 h).1 (List.mem_singleton.2 rfl)

/-- C6 (amended): the synthesized output references are pairwise
distinct across all tasks of one run *provided the input files have
pairwise distinct basename stems* — the assignment index separates
tasks of different combinations, and the stem separates files within
one combination; two files sharing a stem collide. -/
theorem output_uris_nodup (numCombos : Nat) (files : List String)
    (h : (files.map stemOf).Nodup) : (outputUris numCombos files).Nodup := by
  have hfiles : files.Nodup := h.of_map
  have hinj := List.inj_on_of_nodup_map h
  refine List.nodup_flatMap.2 ⟨?_, ?_⟩
  · intro p _
    refine hfiles.map_on ?_
    intro f1 h1 f2 h2 hu
    exact hinj h1 h2 (output_uri_inj f1 f2 (p + 1) (p + 1) hu).1
  · refine (List.nodup_range numCombos).imp ?_
    intro p1 p2 hne
    intro a ha1 ha2
    rcases List.mem_map.1 ha1 with ⟨f1, _, rfl⟩
    rcases List.mem_map.1 ha2 with ⟨f2, _, hu⟩
    have := (output_uri_inj f2 f1 (p2 + 1) (p1 + 1) hu).2
    omega

/-- C6 witness: two combinations over two files with distinct stems
give four pairwise distinct output references. -/
theorem output_uris_nodup_witness :
    ((["file:/a/video1.mp4", "file:/b/video2.mp4"] : List String).map stemOf).Nodup ∧
    (outputUris 2 ["file:/a/video1.mp4", "file:/b/video2.mp4"]).Nodup := by
  have h : ((["file:/a/video1.mp4", "file:/b/video2.mp4"] : List String).map stemOf).Nodup := by
    decide
  exact ⟨h, output_uris_nodup 2 ["file:/a/video1.mp4", "file:/b/video2.mp4"] h⟩

/-- One poll iteration's remote observations: whether the
`test -f … && echo READY` output contains `READY`, the exit status and
stripped stdout of the first `stat -c %s`, and the stripped stdout of
the second `stat` taken after the 2-second delay (its exit status is
read but never checked by the code). -/
structure Probe where
  ready : Bool
  ok1 : Bool
  size1 : String
  size2 : String

/-- The condition under which one poll declares the file ready: output
contains `READY`, the first stat succeeded with non-empty (truthy)
stdout, and the two size strings are equal and not `'0'`. -/
def probeStable (pr : Probe) : Bool :=
  pr.ready && (pr.ok1 && pr.size1 != "") && (pr.size1 == pr.size2 && pr.size1 != "0")

/-- The polling loop of `wait_for_output` with an injectable clock: time
advances only at the sleeps (2 seconds when a stability check was
attempted, plus `check_interval` at the end of each failed iteration);
the loop runs while `elapsed < max_wait`.  `fuel` bounds the number of
iterations so the embedding is total; with a positive interval,
`max_wait + 1` units of fuel are never exhausted (`none`). -/
def waitLoop (probe : Nat → Probe) (interval maxWait : Nat) :
    Nat → Nat → Nat → Option Bool
  | 0, _, elapsed => if elapsed < maxWait then none else some false
  | fuel + 1, iter, elapsed =>
      if elapsed < maxWait then
        let pr := probe iter
        if probeStable pr then some true
        else
          waitLoop probe interval maxWait fuel (iter + 1)
            (elapsed + (if pr.ready && (pr.ok1 && pr.size1 != "") then 2 else 0) + interval)
      else some false

/-- `wait_for_output(host, user, output_uri, check_interval, max_wait)`
with the remote observations abstracted as the probe oracle. -/
def wait_for_output (probe : Nat → Probe) (interval maxWait : Nat) : Option Bool :=
  waitLoop probe interval maxWait (maxWait + 1) 0 0

theorem waitLoop_true_stable (probe : Nat → Probe) (interval maxWait : Nat) :
    ∀ fuel iter elapsed,
      waitLoop probe interval maxWait fuel iter elapsed = some true →
      ∃ n, probeStable (probe n) = true := by
  intro fuel
  induction fuel with
  | zero =>
      intro iter elapsed h
      simp only [waitLoop] at h
      split_ifs at h <;> simp_all
  | succ fuel ih =>
      intro iter elapsed h
      simp only [waitLoop] at h
      split_ifs at h with h1 h2 h3
      · exact ⟨iter, h2⟩
      · exact ih (iter + 1) _ h
      · exact ih (iter + 1) _ h
      · simp at h

theorem waitLoop_false_of_unstable (probe : Nat → Probe) (interval maxWait : Nat)
    (hfail : ∀ n, probeStable (probe n) = false) :
    ∀ fuel iter elapsed, maxWait ≤ elapsed + fuel * interval →
      waitLoop probe interval maxWait fuel iter elapsed = some false := by
  intro fuel
  induction fuel with
  | zero =>
      intro iter elapsed hb
      simp only [waitLoop]
      rw [if_neg (by omega)]
  | succ fuel ih =>
      intro iter elapsed hb
      have hmul : (fuel + 1) * interval = fuel * interval + interval := by ring
      rw [hmul] at hb
      simp only [waitLoop, hfail iter, Bool.false_eq_true, if_false]
      split_ifs with h1 h2
      · refine ih (iter + 1) _ ?_
        generalize fuel * interval = k at hb ⊢
        omega
      · refine ih (iter + 1) _ ?_
        generalize fuel * interval = k at hb ⊢
        omega
      · rfl

/-- C7: the readiness loop declares the remote file ready only if some
poll's two size samples (taken around the fixed 2-second delay) were
equal, non-zero and preceded by a successful existence probe; whenever
every poll's samples are unequal, zero or missing, it never transitions
to ready and instead returns False once the accumulated wait reaches
the configured maximum (time advancing at the sleeps of the injectable
clock; the interval is positive). -/
theorem wait_for_output_stability (probe : Nat → Probe) (interval maxWait : Nat)
    (hpos : 1 ≤ interval) :
    (wait_for_output probe interval maxWait = some true →
      ∃ n, probeStable (probe n) = true) ∧
    ((∀ n, probeStable (probe n) = false) →
      wait_for_output probe interval maxWait = some false) := by
  constructor
  · exact waitLoop_true_stable probe interval maxWait (maxWait + 1) 0 0
  · intro hfail
    refine waitLoop_false_of_unstable probe interval maxWait hfail (maxWait + 1) 0 0 ?_
    have : maxWait + 1 ≤ (maxWait + 1) * interval :=
      Nat.le_mul_of_pos_right _ (by omega)
    omega

/-- A scripted probe sequence: growing sizes, then a zero size, then a
stable non-zero size. -/
def demoProbe (n : Nat) : Probe :=
  match n with
  | 0 => ⟨true, true, "100", "200"⟩
  | 1 => ⟨true, true, "0", "0"⟩
  | _ => ⟨true, true, "300", "300"⟩

/-- C7 witness: with the scripted probe (growing, zero, then stable
sizes), the loop with a positive interval returns ready, and the
theorem yields a stable poll. -/
theorem wait_for_output_stability_witness :
    1 ≤ 10 ∧
    wait_for_output demoProbe 10 3600 = some true ∧
    ∃ n, probeStable (demoProbe n) = true := by
  have h := wait_for_output_stability demoProbe 10 3600 (by norm_num)
  have hrun : wait_for_output demoProbe 10 3600 = some true := by decide
  exact ⟨by norm_num, hrun, h.1 hrun⟩

/-- `path.split('.')` on the character list of a dotted path. -/
def splitDotsAux : List Char → List Char → List (List Char)
  | [], acc => [acc.reverse]
  | c :: rest, acc =>
      if c = '.' then acc.reverse :: splitDotsAux rest []
      else splitDotsAux rest (c :: acc)

/-- `path.split('.')`. -/
def splitDots (s : String) : List String :=
  (splitDotsAux s.data []).map String.mk

/-- Per-task payload construction (`run_experiment` lines 419–421):
`payload = inject_params(template, params)` followed by
`set_nested_value` of the input URI path and of the output URI path.  A
`TypeError` from an intermediate non-mapping collision in any of the
three steps propagates uncaught (`none`). -/
def buildPayload (template : JObj) (inPath outPath : String)
    (params : List (String × JVal)) (inputUri outUri : String) : Option JObj :=
  match inject_params template (params.map (fun kv => (splitDots kv.1, kv.2))) with
  | none => none
  | some p0 =>
      match set_nested_value p0 (splitDots inPath) (JVal.str inputUri) with
      | none => none
      | some p1 => set_nested_value p1 (splitDots outPath) (JVal.str outUri)

/-- The externally observable behaviour of one task's collaborators:
whether `trigger_transcode` reported success (it catches all its own
exceptions), the outcome of `wait_for_output` (`none` marks an
exception escaping the `ssh_command` layer, e.g. a
`subprocess.TimeoutExpired` from a 30-second ssh probe, which nothing
in the call chain catches), whether `download_file` succeeded, and the
analysis record returned by `analyze_video` (which catches its own
exceptions and degrades to an `{'error': …}` record). -/
structure TaskEnv where
  triggerOk : Bool
  waitResult : Option Bool
  downloadOk : Bool
  analysis : QDict

/-- The `file_result` record built for a task that reached analysis. -/
structure FileResult where
  file_index : Nat
  input_uri : String
  output_uri : String
  analysis : QDict
  passed : Bool
  issues : List String

/-- The `best_result` record. -/
structure BestResult where
  param_index : Nat
  params : List (String × JVal)
  file_result : FileResult

/-- One parameter combination's accumulated results. -/
structure ParamResults where
  param_index : Nat
  params : List (String × JVal)
  files : List FileResult

/-- The summary document persisted at run end. -/
structure RunSummary where
  total_tasks : Nat
  passed_tasks : Nat
  best : Option BestResult
  all_results : List ParamResults

/-- The best-register update for one scored candidate: strict
improvement replaces, ties and worse keep the current best
(`if score < best_score`). -/
def stepBest (best : Option (ℚ × BestResult)) (c : ℚ × BestResult) :
    Option (ℚ × BestResult) :=
  match best with
  | none => some c
  | some (bs, bb) => if c.1 < bs then some c else some (bs, bb)

/-- The coordinator's best-register update after one task: only a
passing task is scored and offered to the register. -/
def updateBest (targets : QDict) (pidx : Nat) (params : List (String × JVal))
    (fr : FileResult) (best : Option (ℚ × BestResult)) : Option (ℚ × BestResult) :=
  if fr.passed then stepBest best (scoreOf fr.analysis targets, ⟨pidx, params, fr⟩)
  else best

/-- The inner loop of `run_experiment` over the (1-based) enumerated
files of one parameter combination.  Per task: the payload is built
first (its uncaught `TypeError` aborts the whole run); submission
failure, readiness failure and fetch failure each `continue` to the
next task; a `none` from the wait layer is an uncaught exception
aborting the run, as is a `KeyError` from `check_targets`; a task whose
evaluation returns is recorded and offered to the best register. -/
def runFiles (template : JObj) (inPath outPath : String) (targets : QDict)
    (envs : Nat → TaskEnv) (pidx : Nat) (params : List (String × JVal)) :
    List (Nat × String) → Nat → Option (ℚ × BestResult) → List FileResult →
    Option (Nat × Option (ℚ × BestResult) × List FileResult)
  | [], taskIdx, best, acc => some (taskIdx, best, acc)
  | (fidx, inputUri) :: rest, taskIdx, best, acc =>
      let t := taskIdx + 1
      let env := envs t
      let outUri := output_uri inputUri pidx
      match buildPayload template inPath outPath params inputUri outUri with
      | none => none
      | some _payload =>
          if env.triggerOk = false then
            runFiles template inPath outPath targets envs pidx params rest t best acc
          else
            match env.waitResult with
            | none => none
            | some false =>
                runFiles template inPath outPath targets envs pidx params rest t best acc
            | some true =>
                if env.downloadOk = false then
                  runFiles template inPath outPath targets envs pidx params rest t best acc
                else
                  match check_targets env.analysis targets with
                  | none => none
                  | some res =>
                      let fr : FileResult :=
                        ⟨fidx, inputUri, outUri, env.analysis, res.1, res.2⟩
                      runFiles template inPath outPath targets envs pidx params rest t
                        (updateBest targets pidx params fr best) (acc ++ [fr])

/-- The outer loop of `run_experiment` over the (1-based) enumerated
parameter combinations. -/
def runParams (template : JObj) (inPath outPath : String) (targets : QDict)
    (envs : Nat → TaskEnv) (files : List String) :
    List (Nat × List (String × JVal)) → Nat → Option (ℚ × BestResult) →
    List ParamResults → Option (Nat × Option (ℚ × BestResult) × List ParamResults)
  | [], taskIdx, best, acc => some (taskIdx, best, acc)
  | (pidx, params) :: rest, taskIdx, best, acc =>
      match runFiles template inPath outPath targets envs pidx params
          (List.enumFrom 1 files) taskIdx best [] with
      | none => none
      | some (t2, best2, frs) =>
          runParams template inPath outPath targets envs files rest t2 best2
            (acc ++ [⟨pidx, params, frs⟩])

/-- `passed_tasks` of the summary:
`sum(1 for r in all_results for f in r['files'] if f['passed'])`. -/
def passedCount (prs : List ParamResults) : Nat :=
  (prs.flatMap (fun pr => pr.files.filter (fun fr => fr.passed))).length

/-- `run_experiment`: expand the parameter space, run the task matrix
sequentially (combinations outer, files inner) building each task's
payload from the template and the configured URI paths, and build the
summary; `none` means an exception escaped a task and the summary was
never written. -/
def run_experiment (template : JObj) (inPath outPath : String)
    (param_defs : List (String × PVal)) (files : List String)
    (targets : QDict) (envs : Nat → TaskEnv) : Option RunSummary :=
  let combinations := generate_param_combinations param_defs
  match runParams template inPath outPath targets envs files
      (List.enumFrom 1 combinations) 0 none [] with
  | none => none
  | some (_, best, allResults) =>
      some ⟨combinations.length * files.length, passedCount allResults,
        best.map Prod.snd, allResults⟩

/-- Specification-side selection: the first element of the list
attaining the lowest score — a later candidate replaces an earlier one
only with a strictly smaller score. -/
def specBest : List (ℚ × BestResult) → Option (ℚ × BestResult)
  | [] => none
  | p :: rest =>
      match specBest rest with
      | none => some p
      | some q => if q.1 < p.1 then some q else some p

/-- The scored candidates contributed by the passing file results of
one parameter combination, in task order. -/
def candList (targets : QDict) (pidx : Nat) (params : List (String × JVal))
    (frs : List FileResult) : List (ℚ × BestResult) :=
  (frs.filter (fun fr => fr.passed)).map
    (fun fr => (scoreOf fr.analysis targets, ⟨pidx, params, fr⟩))

/-- All scored passing candidates of a run, in task order. -/
def candidatesOf (targets : QDict) (prs : List ParamResults) : List (ℚ × BestResult) :=
  prs.flatMap (fun pr => candList targets pr.param_index pr.params pr.files)

theorem foldl_stepBest_some (l : List (ℚ × BestResult)) :
    ∀ p : ℚ × BestResult, List.foldl stepBest (some p) l =
      match specBest l with
      | none => some p
      | some q => if q.1 < p.1 then some q else some p := by
  induction l with
  | nil => intro p; rfl
  | cons c rest ih =>
      intro p
      simp only [List.foldl_cons]
      have hstep : stepBest (some p) c = if c.1 < p.1 then some c else some p := by
        obtain ⟨ps, pb⟩ := p
        rfl
      rw [hstep]
      by_cases hc : c.1 < p.1
      · rw [if_pos hc, ih c]
        simp only [specBest]
        cases hq : specBest rest with
        | none => simp [hc]
        | some q =>
            dsimp only
            by_cases hqc : q.1 < c.1
            · rw [if_pos hqc]
              dsimp only
              rw [if_pos (lt_trans hqc hc)]
            · rw [if_neg hqc]
              dsimp only
              rw [if_pos hc]
      · rw [if_neg hc, ih p]
        simp only [specBest]
        cases hq : specBest rest with
        | none => simp [hc]
        | some q =>
            dsimp only
            by_cases hqc : q.1 < c.1
            · rw [if_pos hqc]
            · rw [if_neg hqc]
              dsimp only
              rw [if_neg hc, if_neg (by
                intro hqp
                exact hc (lt_of_le_of_lt (le_of_not_lt hqc) hqp))]

theorem foldl_stepBest_none (l : List (ℚ × BestResult)) :
    List.foldl stepBest none l = specBest l := by
  cases l with
  | nil => rfl
  | cons c rest =>
      simp only [List.foldl_cons]
      have h0 : stepBest none c = some c := rfl
      rw [h0, foldl_stepBest_some rest c]
      simp only [specBest]

theorem candList_cons (targets : QDict) (pidx : Nat) (params : List (String × JVal))
    (fr : FileResult) (frs : List FileResult) :
    candList targets pidx params (fr :: frs) =
      (if fr.passed then [(scoreOf fr.analysis targets,
        (⟨pidx, params, fr⟩ : BestResult))] else []) ++ candList targets pidx params frs := by
  by_cases h : fr.passed <;> simp [candList, h]

/-- A completed inner loop advanced the task counter by one per file,
extended the recorded results by the tasks that reached analysis, and
folded exactly their passing candidates into the best register. -/
theorem runFiles_char (template : JObj) (inPath outPath : String) (targets : QDict)
    (envs : Nat → TaskEnv) (pidx : Nat) (params : List (String × JVal)) :
    ∀ (fs : List (Nat × String)) (t : Nat) (b : Option (ℚ × BestResult))
      (acc : List FileResult) out,
      runFiles template inPath outPath targets envs pidx params fs t b acc = some out →
      ∃ frs, out = (t + fs.length,
        List.foldl stepBest b (candList targets pidx params frs), acc ++ frs) := by
  intro fs
  induction fs with
  | nil =>
      intro t b acc out h
      simp only [runFiles, Option.some.injEq] at h
      exact ⟨[], by simp [← h, candList]⟩
  | cons p rest ih =>
      intro t b acc out h
      obtain ⟨fidx, uri⟩ := p
      simp only [runFiles] at h
      cases hbp : buildPayload template inPath outPath params uri (output_uri uri pidx) with
      | none => rw [hbp] at h; simp at h
      | some payload =>
          rw [hbp] at h
          dsimp only at h
          by_cases htr : (envs (t + 1)).triggerOk = false
          · rw [if_pos htr] at h
            obtain ⟨frs, hout⟩ := ih _ _ _ _ h
            exact ⟨frs, by simp [hout, Nat.add_comm, Nat.add_assoc, Nat.add_left_comm]⟩
          · rw [if_neg htr] at h
            cases hw : (envs (t + 1)).waitResult with
            | none => rw [hw] at h; simp at h
            | some b2 =>
                rw [hw] at h
                cases b2 with
                | false =>
                    dsimp only at h
                    obtain ⟨frs, hout⟩ := ih _ _ _ _ h
                    exact ⟨frs, by simp [hout, Nat.add_comm, Nat.add_assoc,
                      Nat.add_left_comm]⟩
                | true =>
                    dsimp only at h
                    by_cases hd : (envs (t + 1)).downloadOk = false
                    · rw [if_pos hd] at h
                      obtain ⟨frs, hout⟩ := ih _ _ _ _ h
                      exact ⟨frs, by simp [hout, Nat.add_comm, Nat.add_assoc,
                        Nat.add_left_comm]⟩
                    · rw [if_neg hd] at h
                      cases hct : check_targets (envs (t + 1)).analysis targets with
                      | none => rw [hct] at h; simp at h
                      | some res =>
                          rw [hct] at h
                          dsimp only at h
                          obtain ⟨frs, hout⟩ := ih _ _ _ _ h
                          refine ⟨⟨fidx, uri, output_uri uri pidx,
                            (envs (t + 1)).analysis, res.1, res.2⟩ :: frs, ?_⟩
                          rw [hout]
                          refine congrArg₂ Prod.mk (by rw [List.length_cons]; omega) ?_
                          refine congrArg₂ Prod.mk ?_ (by simp)
                          rw [candList_cons]
                          simp only [List.foldl_append]
                          by_cases hp : res.1 = true
                          · simp only [updateBest, hp, if_true, List.foldl_cons,
                              List.foldl_nil]
                          · have hp2 : res.1 = false := by
                              cases hb2 : res.1
                              · rfl
                              · exact absurd hb2 hp
                            simp only [updateBest, hp2, Bool.false_eq_true, if_false,
                              List.foldl_nil]

/-- A completed outer loop advanced the task counter by `files` per
combination, appended one `ParamResults` per combination, and folded
the candidates of all combinations, in matrix order, into the best
register. -/
theorem runParams_char (template : JObj) (inPath outPath : String) (targets : QDict)
    (envs : Nat → TaskEnv) (files : List String) :
    ∀ (combos : List (Nat × List (String × JVal))) (t : Nat)
      (b : Option (ℚ × BestResult)) (acc : List ParamResults) out,
      runParams template inPath outPath targets envs files combos t b acc = some out →
      ∃ prs, out = (t + combos.length * files.length,
        List.foldl stepBest b (candidatesOf targets prs), acc ++ prs) := by
  intro combos
  induction combos with
  | nil =>
      intro t b acc out h
      simp only [runParams, Option.some.injEq] at h
      exact ⟨[], by simp [← h, candidatesOf]⟩
  | cons c rest ih =>
      intro t b acc out h
      obtain ⟨pidx, params⟩ := c
      simp only [runParams] at h
      cases hrf : runFiles template inPath outPath targets envs pidx params
          (List.enumFrom 1 files) t b [] with
      | none => rw [hrf] at h; simp at h
      | some out1 =>
          rw [hrf] at h
          obtain ⟨t2, b2, frs⟩ := out1
          obtain ⟨frs', hout1⟩ :=
            runFiles_char template inPath outPath targets envs pidx params _ _ _ _ _ hrf
          simp only [Prod.mk.injEq, List.nil_append] at hout1
          obtain ⟨ht2, hb2, hfrs⟩ := hout1
          obtain ⟨prs', hout⟩ := ih _ _ _ _ h
          refine ⟨⟨pidx, params, frs⟩ :: prs', ?_⟩
          rw [hout, ht2, hb2, hfrs]
          refine congrArg₂ Prod.mk ?_ (congrArg₂ Prod.mk ?_ (by simp))
          · have hlen : (List.enumFrom 1 files).length = files.length := by simp
            rw [hlen, List.length_cons]
            have hmul : (rest.length + 1) * files.length =
                files.length + rest.length * files.length := by ring
            rw [hmul]
            generalize rest.length * files.length = K
            omega
          · simp [candidatesOf, candList, List.foldl_append]

theorem runFiles_some (template : JObj) (inPath outPath : String) (targets : QDict)
    (envs : Nat → TaskEnv) (pidx : Nat) (params : List (String × JVal))
    (hwait : ∀ i, (envs i).waitResult ≠ none)
    (hcheck : ∀ i, (check_targets (envs i).analysis targets).isSome = true) :
    ∀ (fs : List (Nat × String)),
      (∀ fu ∈ fs, (buildPayload template inPath outPath params fu.2
        (output_uri fu.2 pidx)).isSome = true) →
      ∀ (t : Nat) (b : Option (ℚ × BestResult)) (acc : List FileResult),
      ∃ out, runFiles template inPath outPath targets envs pidx params fs t b acc
        = some out := by
  intro fs
  induction fs with
  | nil => intro _ t b acc; exact ⟨_, rfl⟩
  | cons p rest ih =>
      intro hpay t b acc
      obtain ⟨fidx, uri⟩ := p
      simp only [runFiles]
      obtain ⟨payload, hbp⟩ := Option.isSome_iff_exists.1 (hpay (fidx, uri) (by simp))
      rw [hbp]
      dsimp only
      have hrest : ∀ fu ∈ rest, (buildPayload template inPath outPath params fu.2
          (output_uri fu.2 pidx)).isSome = true :=
        fun fu hfu => hpay fu (by simp [hfu])
      by_cases htr : (envs (t + 1)).triggerOk = false
      · rw [if_pos htr]
        exact ih hrest _ _ _
      · rw [if_neg htr]
        cases hw : (envs (t + 1)).waitResult with
        | none => exact absurd hw (hwait (t + 1))
        | some b2 =>
            cases b2 with
            | false => exact ih hrest _ _ _
            | true =>
                by_cases hd : (envs (t + 1)).downloadOk = false
                · dsimp only
                  rw [if_pos hd]
                  exact ih hrest _ _ _
                · dsimp only
                  rw [if_neg hd]
                  obtain ⟨res, hct⟩ := Option.isSome_iff_exists.1 (hcheck (t + 1))
                  rw [hct]
                  exact ih hrest _ _ _

theorem runParams_some (template : JObj) (inPath outPath : String) (targets : QDict)
    (envs : Nat → TaskEnv) (files : List String)
    (hwait : ∀ i, (envs i).waitResult ≠ none)
    (hcheck : ∀ i, (check_targets (envs i).analysis targets).isSome = true) :
    ∀ (combos : List (Nat × List (String × JVal))),
      (∀ pp ∈ combos, ∀ fu ∈ List.enumFrom 1 files,
        (buildPayload template inPath outPath pp.2 fu.2
          (output_uri fu.2 pp.1)).isSome = true) →
      ∀ (t : Nat) (b : Option (ℚ × BestResult)) (acc : List ParamResults),
      ∃ out, runParams template inPath outPath targets envs files combos t b acc
        = some out := by
  intro combos
  induction combos with
  | nil => intro _ t b acc; exact ⟨_, rfl⟩
  | cons c rest ih =>
      intro hpay t b acc
      obtain ⟨pidx, params⟩ := c
      obtain ⟨out1, hout1⟩ := runFiles_some template inPath outPath targets envs pidx
        params hwait hcheck (List.enumFrom 1 files)
        (fun fu hfu => hpay (pidx, params) (by simp) fu hfu) t b []
      obtain ⟨t2, b2, frs⟩ := out1
      simp only [runParams, hout1]
      exact ih (fun pp hpp fu hfu => hpay pp (by simp [hpp]) fu hfu) _ _ _

/-- C3 counterexample: an exception escaping the `ssh_command` layer
inside `wait_for_output` (e.g. `subprocess.TimeoutExpired` from a slow
ssh probe — nothing between `subprocess.run(..., timeout=30)` and
`run_experiment` catches it) aborts the whole run before `summary.json`
is written, instead of skipping only that task. -/
theorem run_experiment_aborts_on_ssh_exception :
    run_experiment [] "input.uri" "output.uri" [] ["file:/a/v.mp4"] []
      (fun _ => ⟨true, none, true, []⟩) = none := rfl

/-- C3 (amended): provided no per-task step raises an uncaught
exception — no ssh probe raises inside `wait_for_output`, every task's
payload construction (template injection and URI placement) succeeds,
and no task's analysis/targets pair makes `check_targets` raise its
`KeyError` — every per-task failure signalled by a return value
(submission failure, readiness timeout reported as False, fetch
failure, analysis failure downgraded to an error record) causes only
that task to be skipped: the coordinator completes the whole matrix and
builds the RunSummary, with `total_tasks` covering the full matrix,
even when no candidate passed.  Each proviso is forced by a per-task
abort path of the code: `subprocess.TimeoutExpired` from `ssh_command`,
`TypeError` from `set_nested_value` at lines 419–421, and `KeyError`
from `check_targets` line 308. -/
theorem run_experiment_writes_summary (template : JObj) (inPath outPath : String)
    (param_defs : List (String × PVal)) (files : List String) (targets : QDict)
    (envs : Nat → TaskEnv)
    (hwait : ∀ i, (envs i).waitResult ≠ none)
    (hcheck : ∀ i, (check_targets (envs i).analysis targets).isSome = true)
    (hpay : ∀ pp ∈ List.enumFrom 1 (generate_param_combinations param_defs),
      ∀ fu ∈ List.enumFrom 1 files,
      (buildPayload template inPath outPath pp.2 fu.2
        (output_uri fu.2 pp.1)).isSome = true) :
    ∃ s, run_experiment template inPath outPath param_defs files targets envs = some s ∧
      s.total_tasks = (generate_param_combinations param_defs).length * files.length := by
  obtain ⟨out, hout⟩ := runParams_some template inPath outPath targets envs files hwait
    hcheck (List.enumFrom 1 (generate_param_combinations param_defs)) hpay 0 none []
  obtain ⟨t2, b2, prs⟩ := out
  refine ⟨⟨(generate_param_combinations param_defs).length * files.length,
    passedCount prs, b2.map Prod.snd, prs⟩, ?_, rfl⟩
  simp only [run_experiment, hout]

/-- C3 witness: a run over an empty template with the default URI paths
whose every task times out waiting for output (`wait_for_output`
returns False) still completes both tasks and produces a summary
covering the full 2×1 matrix. -/
theorem run_experiment_writes_summary_witness :
    (∀ i, ((fun _ : Nat => (⟨true, some false, true, []⟩ : TaskEnv)) i).waitResult ≠ none) ∧
    (∀ i, (check_targets ((fun _ : Nat => (⟨true, some false, true, []⟩ : TaskEnv)) i).analysis
      []).isSome = true) ∧
    ∃ s, run_experiment [] "input.uri" "output.uri"
        [("encoder.bitrate", PVal.many [JVal.num 2000, JVal.num 3000])]
        ["file:/a/v.mp4"] [] (fun _ => ⟨true, some false, true, []⟩) = some s ∧
      s.total_tasks = 2 := by
  have hwait : ∀ i, ((fun _ : Nat => (⟨true, some false, true, []⟩ : TaskEnv)) i).waitResult
      ≠ none := by
    intro i
    simp
  have hcheck : ∀ i, (check_targets
      ((fun _ : Nat => (⟨true, some false, true, []⟩ : TaskEnv)) i).analysis []).isSome
      = true := by
    intro i
    rfl
  have hpay : ∀ pp ∈ List.enumFrom 1 (generate_param_combinations
      [("encoder.bitrate", PVal.many [JVal.num 2000, JVal.num 3000])]),
      ∀ fu ∈ List.enumFrom 1 ["file:/a/v.mp4"],
      (buildPayload [] "input.uri" "output.uri" pp.2 fu.2
        (output_uri fu.2 pp.1)).isSome = true := by
    decide
  obtain ⟨s, hs, ht⟩ := run_experiment_writes_summary [] "input.uri" "output.uri"
    [("encoder.bitrate", PVal.many [JVal.num 2000, JVal.num 3000])]
    ["file:/a/v.mp4"] [] (fun _ => ⟨true, some false, true, []⟩) hwait hcheck hpay
  refine ⟨hwait, hcheck, s, hs, ?_⟩
  rw [ht]
  rfl

/-- C5: when a run completes, the coordinator's best register holds
exactly the first passing task (in matrix order) attaining the lowest
score, where the score is `|analysis.get('bitrate_avg', 0) -
targets.get('bitrate_avg', 0)|`: `specBest` keeps an earlier candidate
unless a later one is strictly better, so a later passing task with an
equal score never replaces it, and non-passing tasks never enter the
candidate list. -/
theorem run_experiment_best_first_min (template : JObj) (inPath outPath : String)
    (param_defs : List (String × PVal)) (files : List String) (targets : QDict)
    (envs : Nat → TaskEnv) (s : RunSummary)
    (h : run_experiment template inPath outPath param_defs files targets envs = some s) :
    s.best = (specBest (candidatesOf targets s.all_results)).map Prod.snd := by
  simp only [run_experiment] at h
  cases hrp : runParams template inPath outPath targets envs files
      (List.enumFrom 1 (generate_param_combinations param_defs)) 0 none [] with
  | none => rw [hrp] at h; simp at h
  | some out =>
      rw [hrp] at h
      obtain ⟨t2, b2, prs⟩ := out
      obtain ⟨prs', hout⟩ :=
        runParams_char template inPath outPath targets envs files _ _ _ _ _ hrp
      simp only [Prod.mk.injEq, List.nil_append] at hout
      obtain ⟨ht2, hb2, hprs⟩ := hout
      simp only [Option.some.injEq] at h
      rw [← h]
      simp only
      rw [hb2, hprs, foldl_stepBest_none]

/-- C5 witness: a 1×1 run over an empty template whose single task
passes (empty target spec) completes, and its best register agrees with
the first-minimum selection over the passing candidates. -/
theorem run_experiment_best_first_min_witness :
    ∃ s, run_experiment [] "input.uri" "output.uri" [] ["file:/a/v.mp4"] []
        (fun _ => ⟨true, some true, true, [("bitrate_avg", 100)]⟩) = some s ∧
      s.best = (specBest (candidatesOf [] s.all_results)).map Prod.snd := by
  have hsome : (run_experiment [] "input.uri" "output.uri" [] ["file:/a/v.mp4"] []
      (fun _ => ⟨true, some true, true, [("bitrate_avg", 100)]⟩)).isSome = true := rfl
  obtain ⟨s, hs⟩ := Option.isSome_iff_exists.1 hsome
  exact ⟨s, hs, run_experiment_best_first_min [] "input.uri" "output.uri" []
    ["file:/a/v.mp4"] [] (fun _ => ⟨true, some true, true, [("bitrate_avg", 100)]⟩) s hs⟩

end TranscodeTune
